import Mathlib

namespace VCTool

/-! Shallow embedding of the ingestion pipeline in src/etl/rss_loader.py.

The field extractors in the source are built on Python `re`.  They are
embedded here through a small backtracking regular-expression engine whose
match lists enumerate alternatives in exactly the order Python's engine
tries them: leftmost start position first, at a fixed position alternation
in source order and greedy repetition longest-first.  The head of the list
at the first matching position is therefore the match `re.search` returns.
Character classes model the ASCII behaviour of the source patterns. -/

/-- ASCII word character, modelling the word class of the regex engine
used for word boundaries. -/
def isWordChar (c : Char) : Bool := c.isAlphanum || c == '_'

/-- Whitespace class of the regex engine (ASCII part). -/
def wsChar (c : Char) : Bool :=
  c == ' ' || c == '\t' || c == '\n' || c == '\r' || c == '\x0b' || c == '\x0c'

/-- Currency symbol class from the source pattern: dollar, euro, pound. -/
def symChar (c : Char) : Bool := c == '$' || c == '€' || c == '£'

/-- Magnitude letter class [KkMmBb] from the source pattern. -/
def magChar (c : Char) : Bool :=
  c == 'K' || c == 'k' || c == 'M' || c == 'm' || c == 'B' || c == 'b'

/-- Uppercase ASCII letter, the class [A-Z]. -/
def upperChar (c : Char) : Bool := 'A' ≤ c && c ≤ 'Z'

/-- Interior token character of the company pattern: letters, digits,
ampersand, hyphen. -/
def innerChar (c : Char) : Bool := c.isAlphanum || c == '&' || c == '-'

/-- Concatenation of the lists produced for each element, keeping order. -/
def catMap : List α → (α → List β) → List β
  | [], _ => []
  | x :: xs, f => f x ++ catMap xs f

/-- Previous character seen after consuming `c`, used as word-boundary
context for what follows. -/
def lastOr (c : List Char) (prev : Option Char) : Option Char :=
  match c.getLast? with
  | some x => some x
  | none => prev

/-- Wordness of an optional character; the absent edge of the input counts
as non-word. -/
def isWordOpt : Option Char → Bool
  | none => false
  | some c => isWordChar c

/-- Syntax of the regular expressions appearing in the source. -/
inductive Regex where
  | eps
  | wb
  | cls (p : Char → Bool)
  | cat (a b : Regex)
  | alt (a b : Regex)
  | star (a : Regex)

/-- Greedy Kleene star: outcomes with more repetitions come first and every
repetition must consume input (all starred groups in the source patterns
consume at least one character per repetition). -/
def starRun (bodyRun : Option Char → List Char → List (List Char × List Char)) :
    Nat → Option Char → List Char → List (List Char × List Char)
  | 0, _, s => [([], s)]
  | fuel + 1, prev, s =>
      catMap ((bodyRun prev s).filter (fun pr => !pr.1.isEmpty)) (fun pr =>
        (starRun bodyRun fuel (lastOr pr.1 prev) pr.2).map (fun qr =>
          (pr.1 ++ qr.1, qr.2))) ++ [([], s)]

/-- Priority-ordered list of matches of a regex against a prefix of `s`;
each element is (consumed characters, remaining input).  `prev` is the
character just before the current position, for word boundaries.  `fuel`
bounds star repetitions; input length plus one always suffices here. -/
def Regex.run : Regex → Nat → Option Char → List Char → List (List Char × List Char)
  | .eps, _, _, s => [([], s)]
  | .wb, _, prev, s => if isWordOpt prev != isWordOpt s.head? then [([], s)] else []
  | .cls _, _, _, [] => []
  | .cls p, _, _, c :: rest => if p c then [([c], rest)] else []
  | .cat a b, fuel, prev, s =>
      catMap (a.run fuel prev s) (fun pr =>
        (b.run fuel (lastOr pr.1 prev) pr.2).map (fun qr => (pr.1 ++ qr.1, qr.2)))
  | .alt a b, fuel, prev, s => a.run fuel prev s ++ b.run fuel prev s
  | .star a, fuel, prev, s => starRun (fun pv st => a.run fuel pv st) fuel prev s

/-- Leftmost search, returning (text before the match, matched text, text
after the match).  At each start position the head of the run list is the
match Python's engine would report there. -/
def searchSplit (r : Regex) (prev : Option Char) :
    List Char → Option (List Char × List Char × List Char)
  | [] =>
      match (r.run 1 prev []).head? with
      | some pr => some ([], pr.1, pr.2)
      | none => none
  | c :: rest =>
      match (r.run (rest.length + 2) prev (c :: rest)).head? with
      | some pr => some ([], pr.1, pr.2)
      | none =>
          match searchSplit r (some c) rest with
          | some x => some (c :: x.1, x.2.1, x.2.2)
          | none => none

/-- The matched text of the leftmost match, like group(0) of re.search. -/
def searchSpan (r : Regex) (s : List Char) : Option (List Char) :=
  (searchSplit r none s).map (fun x => x.2.1)

/-! Amount extractor: parse_amount_and_currency. -/

/-- Case-insensitive literal character; `c` is given in lowercase. -/
def ciChar (c : Char) : Regex := .cls (fun x => x.toLower == c)

/-- Drop a case-insensitive occurrence of `w` from the front of the input,
returning the remainder, or none if it does not start there. -/
def dropCi : List Char → List Char → Option (List Char)
  | [], s => some s
  | _ :: _, [] => none
  | c :: cs, x :: xs => if x.toLower == c.toLower then dropCi cs xs else none

/-- One pass of re.sub with a whole-word, case-insensitive pattern of the
form word(s)? and a single replacement character, scanning left to right
over the original string as Python does.  `prev` is the character before
the current position (word-boundary context); `fuel` is at least the
remaining length. -/
def wordSub (w : List Char) (rep : Char) : Nat → Option Char → List Char → List Char
  | 0, _, s => s
  | _ + 1, _, [] => []
  | fuel + 1, prev, c :: rest =>
      if !isWordOpt prev then
        match dropCi w (c :: rest) with
        | some tail =>
            match tail with
            | [] => [rep]
            | x :: tail2 =>
                if x.toLower == 's' && !isWordOpt tail2.head? then
                  rep :: wordSub w rep fuel (some x) tail2
                else if !isWordChar x then
                  rep :: wordSub w rep fuel (lastOr w prev) tail
                else c :: wordSub w rep fuel (some c) rest
        | none => c :: wordSub w rep fuel (some c) rest
      else c :: wordSub w rep fuel (some c) rest

/-- The three normalizing substitutions performed before amount matching:
million(s) to M, billion(s) to B, thousand(s) to K, whole-word and
case-insensitive. -/
def normalizeMagnitudes (s : List Char) : List Char :=
  let s1 := wordSub [ 'm', 'i', 'l', 'l', 'i', 'o', 'n' ] 'M' (s.length + 1) none s
  let s2 := wordSub [ 'b', 'i', 'l', 'l', 'i', 'o', 'n' ] 'B' (s1.length + 1) none s1
  wordSub [ 't', 'h', 'o', 'u', 's', 'a', 'n', 'd' ] 'K' (s2.length + 1) none s2

/-- One to three digits, greedy (longest alternative first). -/
def d13 : Regex :=
  .alt (.cat (.cls Char.isDigit) (.cat (.cls Char.isDigit) (.cls Char.isDigit)))
    (.alt (.cat (.cls Char.isDigit) (.cls Char.isDigit)) (.cls Char.isDigit))

/-- A comma followed by exactly three digits (one thousands group). -/
def commaGroup : Regex :=
  .cat (.cls (fun c => c == ',')) (.cat (.cls Char.isDigit) (.cat (.cls Char.isDigit) (.cls Char.isDigit)))

/-- One or more digits, greedy. -/
def dplus : Regex := .cat (.cls Char.isDigit) (.star (.cls Char.isDigit))

/-- The capturing group of the number pattern: digit groups with optional
comma thousands-separators, or a plain digit run. -/
def numberCore : Regex := .alt (.cat d13 (.star commaGroup)) dplus

/-- The full number pattern: the capturing group then an optional,
non-captured decimal fraction. -/
def numberRe : Regex :=
  .cat numberCore (.alt (.cat (.cls (fun c => c == '.')) dplus) .eps)

/-- Zero or more whitespace characters. -/
def wsStar : Regex := .star (.cls wsChar)

/-- One or more whitespace characters. -/
def wsPlus : Regex := .cat (.cls wsChar) (.star (.cls wsChar))

/-- Optional magnitude letter. -/
def magOpt : Regex := .alt (.cls magChar) .eps

/-- Word-bounded currency code alternation USD / EUR / GBP (the patterns
are compiled case-insensitively in the source). -/
def codeAlt : Regex :=
  .alt (.cat (ciChar 'u') (.cat (ciChar 's') (ciChar 'd')))
    (.alt (.cat (ciChar 'e') (.cat (ciChar 'u') (ciChar 'r')))
      (.cat (ciChar 'g') (.cat (ciChar 'b') (ciChar 'p'))))

/-- Pattern 1: symbol, number, optional magnitude. -/
def amountP1 : Regex :=
  .cat (.cls symChar) (.cat wsStar (.cat numberRe (.cat wsStar magOpt)))

/-- Pattern 2: number, optional magnitude, symbol. -/
def amountP2 : Regex :=
  .cat numberRe (.cat wsStar (.cat magOpt (.cat wsStar (.cls symChar))))

/-- Pattern 3: word-bounded code, number, optional magnitude. -/
def amountP3 : Regex :=
  .cat .wb (.cat codeAlt (.cat .wb (.cat wsStar (.cat numberRe (.cat wsStar magOpt)))))

/-- Pattern 4: number, optional magnitude, word-bounded code. -/
def amountP4 : Regex :=
  .cat numberRe (.cat wsStar (.cat magOpt (.cat wsStar (.cat .wb (.cat codeAlt .wb)))))

/-- Try the four amount shapes in source order, taking the leftmost match
of the first shape that matches anywhere; returns the matched span. -/
def tryPatterns (s : List Char) : Option (List Char) :=
  match searchSpan amountP1 s with
  | some m => some m
  | none =>
      match searchSpan amountP2 s with
      | some m => some m
      | none =>
          match searchSpan amountP3 s with
          | some m => some m
          | none => searchSpan amountP4 s

/-- First element of re.findall with the number pattern over the matched
span.  findall returns the text of the single capturing group, which is
the full match minus the non-captured decimal fraction, hence the prefix
before the first dot. -/
def firstRawNum (span : List Char) : Option (List Char) :=
  (searchSpan numberRe span).map (List.takeWhile (fun c => c ≠ '.'))

/-- Result of re.search with the bare optional-magnitude pattern over the
matched span (an empty match is found at position zero whenever the first
character is not a magnitude letter). -/
def magnitudeOf (span : List Char) : List Char :=
  (searchSpan magOpt span).getD []

/-- The currency deduced from the matched span: a word-bounded code takes
precedence, otherwise the first currency symbol is mapped through the
symbol-to-code table. -/
def currencyOf (span : List Char) : Option String :=
  match searchSpan (.cat .wb (.cat codeAlt .wb)) span with
  | some code => some (String.mk (code.map Char.toUpper))
  | none =>
      match searchSpan (.cls symChar) span with
      | some [c] =>
          if c == '$' then some "USD"
          else if c == '€' then some "EUR"
          else if c == '£' then some "GBP"
          else none
      | some _ => none
      | none => none

/-- Numeric parse of the comma-stripped digit string, modelling Python
float() on the inputs that occur here; an empty or non-digit string
fails. -/
def digitsToNat? (l : List Char) : Option Nat :=
  if l.isEmpty then none
  else if l.all Char.isDigit then
    some (l.foldl (fun a c => a * 10 + (c.toNat - 48)) 0)
  else none

/-- Unconditional numeric value of a raw number token: commas removed,
digits folded to a natural number, as a rational. -/
def numValue (g : List Char) : Rat :=
  mkRat (((g.filter (fun c => c ≠ ',')).foldl (fun a c => a * 10 + (c.toNat - 48)) 0 : Nat) : Int) 1

/-- Multiplication of a rational by a natural scale factor, written on the
numerator so that concrete values evaluate by kernel reduction. -/
def ratScaleNat (v : Rat) (k : Nat) : Rat := mkRat (v.num * (k : Int)) v.den

/-- The integer nearest 100 times the value, ties to even: the number of
cents after the two-decimal rounding the source applies. -/
def roundHalfEvenCents (q : Rat) : Int :=
  let n : Int := q.num * 100
  let d : Int := (q.den : Int)
  let fl := n.fdiv d
  let r2 := 2 * (n - fl * d)
  if r2 < d then fl
  else if d < r2 then fl + 1
  else if fl % 2 == 0 then fl else fl + 1

/-- Rounding to two decimal places (cent precision), modelling the
two-decimal float format of the source. -/
def round2 (q : Rat) : Rat := mkRat (roundHalfEvenCents q) 100

/-- Multiply by the magnitude, matching on the uppercased magnitude
string. -/
def applyMag (mag : List Char) (v : Rat) : Rat :=
  match mag.map Char.toUpper with
  | ['K'] => ratScaleNat v 1000
  | ['M'] => ratScaleNat v 1000000
  | ['B'] => ratScaleNat v 1000000000
  | _ => v

/-- Embedding of parse_amount_and_currency: normalize magnitude words, try
the four shapes in order, then deduce number, magnitude and currency from
the matched span exactly as the source does. -/
def parse_amount_and_currency (title : String) : Option Rat × Option String :=
  let norm := normalizeMagnitudes title.data
  match tryPatterns norm with
  | none => (none, none)
  | some span =>
      let used_currency := currencyOf span
      match firstRawNum span with
      | none => (none, none)
      | some rawNum =>
          let numStr := rawNum.filter (fun c => c ≠ ',')
          match digitsToNat? numStr with
          | none => (none, used_currency)
          | some n =>
              let value : Rat := mkRat (n : Int) 1
              (some (round2 (applyMag (magnitudeOf span) value)), used_currency)

/-! Stage extractor: parse_stage. -/

/-- Word-bounded pre-seed pattern: pre, optional space or hyphen, seed. -/
def preSeedRe : Regex :=
  .cat .wb (.cat (.cat (ciChar 'p') (.cat (ciChar 'r') (ciChar 'e')))
    (.cat (.alt (.cls (fun c => wsChar c || c == '-')) .eps)
      (.cat (.cat (ciChar 's') (.cat (ciChar 'e') (.cat (ciChar 'e') (ciChar 'd')))) .wb)))

/-- Word-bounded seed pattern. -/
def seedRe : Regex :=
  .cat .wb (.cat (.cat (ciChar 's') (.cat (ciChar 'e') (.cat (ciChar 'e') (ciChar 'd')))) .wb)

/-- Word-bounded series pattern: the word series, whitespace, one letter
(the class [A-Z] compiled case-insensitively, hence any ASCII letter),
word boundary. -/
def seriesRe : Regex :=
  .cat .wb (.cat (.cat (ciChar 's') (.cat (ciChar 'e') (.cat (ciChar 'r')
    (.cat (ciChar 'i') (.cat (ciChar 'e') (ciChar 's'))))))
    (.cat wsPlus (.cat (.cls Char.isAlpha) .wb)))

/-- Embedding of parse_stage: pre-seed first, then seed, then series plus
letter; the matched letter is the last consumed character of the series
span and is uppercased. -/
def parse_stage (title : String) : Option String :=
  let t := title.data
  if (searchSpan preSeedRe t).isSome then some "Pre-Seed"
  else if (searchSpan seedRe t).isSome then some "Seed"
  else
    match searchSpan seriesRe t with
    | some span =>
        match span.getLast? with
        | some c => some (String.mk ([ 'S', 'e', 'r', 'i', 'e', 's', ' ' ] ++ [c.toUpper]))
        | none => none
    | none => none

/-! Company extractor: parse_company. -/

/-- Does `pat` occur at the head of `s`. -/
def startsWithL : List Char → List Char → Bool
  | [], _ => true
  | _ :: _, [] => false
  | p :: ps, x :: xs => p == x && startsWithL ps xs

/-- Substring occurrence test, like the Python in operator on strings. -/
def isSub (pat : List Char) : List Char → Bool
  | [] => startsWithL pat []
  | x :: xs => startsWithL pat (x :: xs) || isSub pat xs

/-- The part of `s` strictly before the first occurrence of `pat`,
like split(pat, 1) taking the first piece, for a `pat` that occurs. -/
def beforeFirst (pat : List Char) : List Char → List Char
  | [] => []
  | x :: xs => if startsWithL pat (x :: xs) then [] else x :: beforeFirst pat xs

/-- The fixed separator list of parse_company, in source order. -/
def separators : List String := [":", " - ", " – ", " — ", "–", "—", " | "]

/-- The source's truncation loop: the first separator in list order that
occurs anywhere truncates the title at that separator's first occurrence,
then the loop breaks. -/
def truncateGo (t : List Char) : List String → List Char
  | [] => t
  | sep :: rest => if isSub sep.data t then beforeFirst sep.data t else truncateGo t rest

/-- Title segment kept for company scanning. -/
def truncateSeg (t : List Char) : List Char := truncateGo t separators

/-- One capitalized token: uppercase letter then interior characters. -/
def compToken : Regex := .cat (.cls upperChar) (.star (.cls innerChar))

/-- The proper-noun pattern: word boundary, a capitalized token, further
whitespace-joined capitalized tokens, word boundary. -/
def compRe : Regex :=
  .cat .wb (.cat compToken (.cat (.star (.cat wsPlus compToken)) .wb))

/-- The fixed exclusion vocabulary of parse_company. -/
def excludeTokens : List String :=
  ["Raises", "Raise", "Raising", "Raised", "Funding", "Funded", "Series",
   "Seed", "Round", "Pre-Seed", "Pre", "SeedRound", "A", "B", "C", "D", "E"]

/-- Known source-name strings rejected as candidates. -/
def sourceNames : List String := ["techcrunch", "eu-startups", "eu startups"]

/-- Membership of a string in a string list, by equality. -/
def strMem (l : List String) (a : String) : Bool :=
  l.any (fun x => x == a)

/-- Python str.split(): whitespace-separated tokens, empties dropped.
`cur` accumulates the current token reversed. -/
def splitWsGo (cur : List Char) : List Char → List (List Char)
  | [] => if cur.isEmpty then [] else [cur.reverse]
  | c :: rest =>
      if wsChar c then
        if cur.isEmpty then splitWsGo [] rest
        else cur.reverse :: splitWsGo [] rest
      else splitWsGo (c :: cur) rest

/-- Python str.strip(): drop whitespace from both ends. -/
def stripWs (s : List Char) : List Char :=
  ((s.dropWhile wsChar).reverse.dropWhile wsChar).reverse

/-- The per-candidate filters of parse_company, as one conjunction; a
failing candidate makes the scan continue. -/
def candidateOk (cand : List Char) : Bool :=
  !(splitWsGo [] cand).any (fun tok => strMem excludeTokens (String.mk tok))
    && !(strMem sourceNames (String.mk (cand.map Char.toLower)))
    && decide (cand.length ≥ 2)

/-- The finditer loop of parse_company: find the next non-overlapping
proper-noun match, return it if it passes the filters, otherwise continue
after it.  `fuel` is at least the remaining length plus one. -/
def scanCandidates : Nat → Option Char → List Char → Option String
  | 0, _, _ => none
  | fuel + 1, prev, s =>
      match searchSplit compRe prev s with
      | none => none
      | some x =>
          let cand := stripWs x.2.1
          if candidateOk cand then some (String.mk cand)
          else scanCandidates fuel (lastOr x.2.1 (lastOr x.1 prev)) x.2.2

/-- Embedding of parse_company: truncate at the first listed separator
that occurs, then scan for the first surviving capitalized candidate. -/
def parse_company (title : String) : Option String :=
  let segment := truncateSeg title.data
  scanCandidates (segment.length + 1) none segment

/-! Relevance filter: is_funding_related. -/

/-- The fixed funding keyword list of the source. -/
def funding_keywords : List String :=
  ["raises", "funding", "series", "seed", "round", "secures", "secured",
   "closes", "closing", "invests", "investment", "backs", "backed"]

/-- Embedding of is_funding_related: case-insensitive substring match of
any keyword against the lowercased title. -/
def is_funding_related (title : String) : Bool :=
  let text := title.data.map Char.toLower
  funding_keywords.any (fun k => isSub k.data text)

/-! Date resolution: parse_published_utc and within_since_days. -/

/-- Decidable equality for exception results. -/
instance {ε α : Type} [DecidableEq ε] [DecidableEq α] : DecidableEq (Except ε α) := fun a b =>
  match a, b with
  | .ok x, .ok y =>
      if h : x = y then .isTrue (by rw [h])
      else .isFalse (fun hc => h (by injection hc))
  | .error x, .error y =>
      if h : x = y then .isTrue (by rw [h])
      else .isFalse (fun hc => h (by injection hc))
  | .ok _, .error _ => .isFalse (fun hc => Except.noConfusion hc)
  | .error _, .ok _ => .isFalse (fun hc => Except.noConfusion hc)

/-- A feed entry as the normalizer sees it.  A date source is none when the
corresponding entry field is absent or falsy; when present, it either
produces the ISO-8601 UTC string the source would compute for it, or
raises (error), covering both datetime construction from the structured
tuples and the free-text parser. -/
structure RawEntry where
  title : String
  link : String
  published_parsed : Option (Except Unit String)
  updated_parsed : Option (Except Unit String)
  published : Option (Except Unit String)
  updated : Option (Except Unit String)
deriving DecidableEq

/-- The body of the try block of parse_published_utc: sources are consulted
in order, absence falls through to the next source, and a raised parse
error propagates out of the whole body. -/
def publishedAttempt (e : RawEntry) : Except Unit (Option String) :=
  match e.published_parsed with
  | some (.ok s) => .ok (some s)
  | some (.error u) => .error u
  | none =>
      match e.updated_parsed with
      | some (.ok s) => .ok (some s)
      | some (.error u) => .error u
      | none =>
          match e.published with
          | some (.ok s) => .ok (some s)
          | some (.error u) => .error u
          | none =>
              match e.updated with
              | some (.ok s) => .ok (some s)
              | some (.error u) => .error u
              | none => .ok none

/-- Embedding of parse_published_utc: the single exception handler around
the whole body turns any raised parse error into a null result. -/
def parse_published_utc (e : RawEntry) : Option String :=
  match publishedAttempt e with
  | .ok r => r
  | .error _ => none

/-- Embedding of within_since_days.  Instants are seconds as integers;
`isoT` abstracts the ISO date parser (which may raise); `now` is the
current instant.  A null or unparseable date keeps the item; otherwise the
item is kept iff its instant is at least now minus since_days days. -/
def within_since_days (isoT : String → Except Unit Int) (now : Int)
    (published_iso : Option String) (since_days : Int) : Bool :=
  match published_iso with
  | none => true
  | some s =>
      match isoT s with
      | .error _ => true
      | .ok dt => decide (dt ≥ now - 86400 * since_days)

/-! Normalization of one entry: normalize_entry, and the per-entry
exception handler of collect_news. -/

/-- The record persisted for one accepted entry. -/
structure NewsItem where
  title : String
  link : String
  published_utc : Option String
  source : String
  company : Option String
  amount_value : Option Rat
  amount_currency : Option String
  stage : Option String
  inserted_at_utc : String
deriving DecidableEq

/-- Embedding of normalize_entry with the three field extractors as
parameters that may raise; the source body contains no handler, so a
raised extractor exception propagates out.  `isoT` and `now` parameterize
the recency check and `inserted_at` the construction timestamp. -/
def normalize_entryE
    (companyF : String → Except Unit (Option String))
    (amountF : String → Except Unit (Option Rat × Option String))
    (stageF : String → Except Unit (Option String))
    (isoT : String → Except Unit Int) (now : Int) (since_days : Int)
    (inserted_at : String) (source : String)
    (e : RawEntry) : Except Unit (Option NewsItem) :=
  if e.title = "" ∨ e.link = "" then .ok none
  else if !is_funding_related e.title then .ok none
  else
    let published_utc := parse_published_utc e
    if !within_since_days isoT now published_utc since_days then .ok none
    else
      match companyF e.title with
      | .error u => .error u
      | .ok company =>
          match amountF e.title with
          | .error u => .error u
          | .ok ac =>
              match stageF e.title with
              | .error u => .error u
              | .ok stage =>
                  .ok (some
                    { title := String.mk (stripWs e.title.data)
                      link := String.mk (stripWs e.link.data)
                      published_utc := published_utc
                      source := source
                      company := company
                      amount_value := ac.1
                      amount_currency := ac.2
                      stage := stage
                      inserted_at_utc := inserted_at })

/-- normalize_entry as the source runs it, with the real extractors (which
never raise). -/
def normalize_entry (isoT : String → Except Unit Int) (now : Int)
    (since_days : Int) (inserted_at : String) (source : String)
    (e : RawEntry) : Option NewsItem :=
  match normalize_entryE (fun t => .ok (parse_company t))
      (fun t => .ok (parse_amount_and_currency t))
      (fun t => .ok (parse_stage t)) isoT now since_days inserted_at source e with
  | .ok r => r
  | .error _ => none

/-- The per-entry handler in collect_news: an exception escaping
normalize_entry is caught and the entry contributes nothing. -/
def process_entry
    (companyF : String → Except Unit (Option String))
    (amountF : String → Except Unit (Option Rat × Option String))
    (stageF : String → Except Unit (Option String))
    (isoT : String → Except Unit Int) (now : Int) (since_days : Int)
    (inserted_at : String) (source : String)
    (e : RawEntry) : Option NewsItem :=
  match normalize_entryE companyF amountF stageF isoT now since_days inserted_at source e with
  | .ok r => r
  | .error _ => none

/-! Store: insert_news_items over the news table, whose link column is
unique; INSERT OR IGNORE skips a row whose link already exists.  The
store is the list of rows in insertion order. -/

/-- Embedding of insert_news_items: one INSERT OR IGNORE per item, the
count of newly inserted rows accumulated. -/
def insert_news_items (store : List NewsItem) : List NewsItem → List NewsItem × Nat
  | [] => (store, 0)
  | it :: rest =>
      if store.any (fun r => r.link == it.link) then
        insert_news_items store rest
      else
        let res := insert_news_items (store ++ [it]) rest
        (res.1, res.2 + 1)

/-! Backup log: load_existing_csv_links and append_items_to_csv.  The
file is modelled as its list of rows (text serialization preserves the
link field verbatim, which is all the dedup logic reads). -/

/-- Links of the rows of a file. -/
def linksOf (file : List NewsItem) : List String := file.map (fun r => r.link)

/-- Embedding of load_existing_csv_links: every non-empty link of an
existing row (a row with a falsy link field is skipped). -/
def load_existing_csv_links (file : List NewsItem) : List String :=
  (linksOf file).filter (fun l => decide (l ≠ ""))

/-- The append loop of append_items_to_csv: an item whose link is in the
seen-set is skipped, otherwise its row is appended, its link added to the
seen-set and the written count incremented. -/
def appendGo (existing : List String) (file : List NewsItem) (written : Nat) :
    List NewsItem → List NewsItem × Nat
  | [] => (file, written)
  | it :: rest =>
      if strMem existing it.link then appendGo existing file written rest
      else appendGo (it.link :: existing) (file ++ [it]) (written + 1) rest

/-- Embedding of append_items_to_csv: the seen-set starts as the entire
existing log contents, loaded once per call. -/
def append_items_to_csv (file : List NewsItem) (items : List NewsItem) :
    List NewsItem × Nat :=
  appendGo (load_existing_csv_links file) file 0 items

/-! Auxiliary notions used to state the claims. -/

/-- Index of the first occurrence of `pat` in the input, if any. -/
def indexOfSub (pat : List Char) : List Char → Option Nat
  | [] => if startsWithL pat [] then some 0 else none
  | x :: xs =>
      if startsWithL pat (x :: xs) then some 0
      else (indexOfSub pat xs).map (fun i => i + 1)

/-- Minimum of a list of naturals, if non-empty. -/
def minNat? : List Nat → Option Nat
  | [] => none
  | x :: xs =>
      match minNat? xs with
      | none => some x
      | some m => some (Nat.min x m)

/-- Following the spec's words for the company truncation step: the portion
of the title strictly before the earliest-positioned occurrence of any
separator of the fixed set (the whole title when none occurs). -/
def earliestSepPortionSpec (t : List Char) : List Char :=
  match minNat? (separators.filterMap (fun sep => indexOfSub sep.data t)) with
  | some i => t.take i
  | none => t

/-- First characters of matches: FirstSat p r holds when every match of r
is non-empty and begins with a character of the class-level property p.
Only the shapes occurring at the head of the source patterns are needed:
a class, a concatenation whose left part already guarantees it, a leading
zero-width word boundary, and an alternation of such. -/
inductive FirstSat (p : Char → Prop) : Regex → Prop where
  | cls (q : Char → Bool) (h : ∀ c, q c = true → p c) : FirstSat p (.cls q)
  | cat_left {a b : Regex} (ha : FirstSat p a) : FirstSat p (.cat a b)
  | cat_wb {b : Regex} (hb : FirstSat p b) : FirstSat p (.cat .wb b)
  | alt {a b : Regex} (ha : FirstSat p a) (hb : FirstSat p b) : FirstSat p (.alt a b)

/-- Character-content of matches: CharsSat p r holds when every character
consumed by a match of r satisfies p. -/
inductive CharsSat (p : Char → Prop) : Regex → Prop where
  | eps : CharsSat p .eps
  | wb : CharsSat p .wb
  | cls (q : Char → Bool) (h : ∀ c, q c = true → p c) : CharsSat p (.cls q)
  | cat {a b : Regex} (ha : CharsSat p a) (hb : CharsSat p b) : CharsSat p (.cat a b)
  | alt {a b : Regex} (ha : CharsSat p a) (hb : CharsSat p b) : CharsSat p (.alt a b)
  | star {a : Regex} (ha : CharsSat p a) : CharsSat p (.star a)

/-! Concrete inputs used in counterexamples and witnesses. -/

/-- First literal extraction case of the spec. -/
def acmeTitle : String := "Acme Robotics raises $5M Seed round"

/-- Second literal extraction case of the spec. -/
def nimbusTitle : String := "Nimbus Health secures €3.2 million Series A"

/-- Third literal extraction case of the spec. -/
def fionaTitle : String := "Fiona & Co: Pre-Seed funding of £750,000"

/-- A title whose positionally earliest separator (the spaced hyphen)
differs from the first separator in list order (the colon). -/
def mixedSepTitle : String := "lower - Beta: Gamma"

/-- The amount span matched in the normalized Nimbus title. -/
def nimbusSpan : List Char := ['€', '3', '.', '2', ' ', 'M']

/-- An entry whose structured published field is present but unparseable
while the free-text updated field parses. -/
def badPubEntry : RawEntry :=
  { title := "", link := "",
    published_parsed := some (.error ()),
    updated_parsed := none,
    published := none,
    updated := some (.ok "2024-05-01T00:00:00+00:00") }

/-- An entry with a parseable structured published field. -/
def okDateEntry : RawEntry :=
  { title := "", link := "",
    published_parsed := some (.ok "2024-01-02T03:04:05+00:00"),
    updated_parsed := none, published := none, updated := none }

/-- A relevant entry with no date information. -/
def fundedEntry : RawEntry :=
  { title := acmeTitle, link := "https://example.com/acme",
    published_parsed := none, updated_parsed := none,
    published := none, updated := none }

/-- An ISO parser that always raises (never consulted when the resolved
date is null). -/
def errIso : String → Except Unit Int := fun _ => .error ()

/-- A minimal concrete record. -/
def itemL : NewsItem :=
  { title := "t", link := "L", published_utc := none, source := "s",
    company := none, amount_value := none, amount_currency := none,
    stage := none, inserted_at_utc := "i" }

/-- The record normalize_entry produces for fundedEntry. -/
def acmeItem : NewsItem :=
  { title := acmeTitle, link := "https://example.com/acme",
    published_utc := none, source := "techcrunch",
    company := some "Acme Robotics", amount_value := some 5,
    amount_currency := some "USD", stage := some "Seed",
    inserted_at_utc := "2025-01-01T00:00:00+00:00" }

/-! Helper lemmas about the engine. -/

theorem mem_catMap {α β : Type} {b : β} {xs : List α} {f : α → List β} :
    b ∈ catMap xs f ↔ ∃ a ∈ xs, b ∈ f a := by
  induction xs with
  | nil => simp [catMap]
  | cons x xs ih => simp [catMap, List.mem_append, ih]

theorem head?_mem {α : Type} {l : List α} {a : α} (h : l.head? = some a) : a ∈ l := by
  cases l with
  | nil => simp at h
  | cons x xs =>
      simp at h
      subst h
      exact List.mem_cons_self _ _

theorem mem_takeWhile {α : Type} {p : α → Bool} :
    ∀ {l : List α} {a : α}, a ∈ l.takeWhile p → a ∈ l ∧ p a = true := by
  intro l
  induction l with
  | nil => intro a h; simp [List.takeWhile] at h
  | cons x xs ih =>
      intro a h
      cases hp : p x with
      | false => simp [List.takeWhile, hp] at h
      | true =>
          simp only [List.takeWhile, hp] at h
          rcases List.mem_cons.mp h with rfl | h2
          · exact ⟨List.mem_cons_self _ _, hp⟩
          · obtain ⟨h3, h4⟩ := ih h2
            exact ⟨List.mem_cons_of_mem _ h3, h4⟩

theorem strMem_iff {l : List String} {a : String} : strMem l a = true ↔ a ∈ l := by
  simp [strMem, List.any_eq_true]

theorem starRun_charsSat {p : Char → Prop}
    {bodyRun : Option Char → List Char → List (List Char × List Char)}
    (hbody : ∀ prev s c rest, (c, rest) ∈ bodyRun prev s → ∀ ch ∈ c, p ch) :
    ∀ (fuel : Nat) (prev : Option Char) (s c rest : List Char),
      (c, rest) ∈ starRun bodyRun fuel prev s → ∀ ch ∈ c, p ch := by
  intro fuel
  induction fuel with
  | zero =>
      intro prev s c rest hm ch hch
      simp [starRun] at hm
      rw [hm.1] at hch
      simp at hch
  | succ n ih =>
      intro prev s c rest hm ch hch
      simp only [starRun] at hm
      rw [List.mem_append] at hm
      rcases hm with hm | hm
      · rw [mem_catMap] at hm
        obtain ⟨pr, hpr, hmm⟩ := hm
        rw [List.mem_filter] at hpr
        rw [List.mem_map] at hmm
        obtain ⟨qr, hqr, heq⟩ := hmm
        have hc : c = pr.1 ++ qr.1 := by
          have := congrArg Prod.fst heq
          simpa using this.symm
        rw [hc, List.mem_append] at hch
        rcases hch with hch | hch
        · exact hbody _ _ pr.1 pr.2 hpr.1 ch hch
        · exact ih _ _ qr.1 qr.2 hqr ch hch
      · simp at hm
        rw [hm.1] at hch
        simp at hch

theorem run_charsSat {p : Char → Prop} :
    ∀ {r : Regex}, CharsSat p r →
      ∀ (fuel : Nat) (prev : Option Char) (s c rest : List Char),
        (c, rest) ∈ r.run fuel prev s → ∀ ch ∈ c, p ch := by
  intro r h
  induction h with
  | eps =>
      intro fuel prev s c rest hm ch hch
      simp [Regex.run] at hm
      rw [hm.1] at hch
      simp at hch
  | wb =>
      intro fuel prev s c rest hm ch hch
      simp only [Regex.run] at hm
      split at hm
      · simp at hm
        rw [hm.1] at hch
        simp at hch
      · simp at hm
  | cls q hq =>
      intro fuel prev s c rest hm ch hch
      cases s with
      | nil => simp [Regex.run] at hm
      | cons x xs =>
          simp only [Regex.run] at hm
          split at hm
          · rename_i hx
            simp at hm
            rw [hm.1] at hch
            simp at hch
            rw [hch]
            exact hq x hx
          · simp at hm
  | cat ha hb iha ihb =>
      intro fuel prev s c rest hm ch hch
      simp only [Regex.run] at hm
      rw [mem_catMap] at hm
      obtain ⟨pr, hpr, hmm⟩ := hm
      rw [List.mem_map] at hmm
      obtain ⟨qr, hqr, heq⟩ := hmm
      have hc : c = pr.1 ++ qr.1 := by
        have := congrArg Prod.fst heq
        simpa using this.symm
      rw [hc, List.mem_append] at hch
      rcases hch with hch | hch
      · exact iha fuel prev s pr.1 pr.2 hpr ch hch
      · exact ihb fuel _ pr.2 qr.1 qr.2 hqr ch hch
  | alt ha hb iha ihb =>
      intro fuel prev s c rest hm ch hch
      simp only [Regex.run] at hm
      rw [List.mem_append] at hm
      rcases hm with hm | hm
      · exact iha fuel prev s c rest hm ch hch
      · exact ihb fuel prev s c rest hm ch hch
  | star ha iha =>
      intro fuel prev s c rest hm ch hch
      simp only [Regex.run] at hm
      exact starRun_charsSat (fun pv st cc rr hmm => iha fuel pv st cc rr hmm)
        fuel prev s c rest hm ch hch

theorem run_firstSat {p : Char → Prop} :
    ∀ {r : Regex}, FirstSat p r →
      ∀ (fuel : Nat) (prev : Option Char) (s c rest : List Char),
        (c, rest) ∈ r.run fuel prev s → ∃ hd tl, c = hd :: tl ∧ p hd := by
  intro r h
  induction h with
  | cls q hq =>
      intro fuel prev s c rest hm
      cases s with
      | nil => simp [Regex.run] at hm
      | cons x xs =>
          simp only [Regex.run] at hm
          split at hm
          · rename_i hx
            simp at hm
            exact ⟨x, [], hm.1, hq x hx⟩
          · simp at hm
  | cat_left ha iha =>
      intro fuel prev s c rest hm
      simp only [Regex.run] at hm
      rw [mem_catMap] at hm
      obtain ⟨pr, hpr, hmm⟩ := hm
      rw [List.mem_map] at hmm
      obtain ⟨qr, hqr, heq⟩ := hmm
      obtain ⟨hd, tl, hpr1, hphd⟩ := iha fuel prev s pr.1 pr.2 hpr
      have hc : c = pr.1 ++ qr.1 := by
        have := congrArg Prod.fst heq
        simpa using this.symm
      refine ⟨hd, tl ++ qr.1, ?_, hphd⟩
      rw [hc, hpr1]
      simp
  | cat_wb hb ihb =>
      intro fuel prev s c rest hm
      simp only [Regex.run] at hm
      rw [mem_catMap] at hm
      obtain ⟨pr, hpr, hmm⟩ := hm
      split at hpr
      · rw [List.mem_singleton] at hpr
        subst hpr
        rw [List.mem_map] at hmm
        obtain ⟨qr, hqr, heq⟩ := hmm
        obtain ⟨hd, tl, hq1, hphd⟩ := ihb fuel _ _ qr.1 qr.2 hqr
        have hc : c = qr.1 := by
          have := congrArg Prod.fst heq
          simpa using this.symm
        exact ⟨hd, tl, by rw [hc, hq1], hphd⟩
      · simp at hpr
  | alt ha hb iha ihb =>
      intro fuel prev s c rest hm
      simp only [Regex.run] at hm
      rw [List.mem_append] at hm
      rcases hm with hm | hm
      · exact iha fuel prev s c rest hm
      · exact ihb fuel prev s c rest hm

theorem searchSplit_run {r : Regex} :
    ∀ {prev : Option Char} {s : List Char} {x : List Char × List Char × List Char},
      searchSplit r prev s = some x →
      ∃ prev2 s2, (x.2.1, x.2.2) ∈ r.run (s2.length + 1) prev2 s2 := by
  intro prev s
  induction s generalizing prev with
  | nil =>
      intro x h
      simp only [searchSplit] at h
      split at h
      · rename_i pr hpr
        injection h with h
        refine ⟨prev, [], ?_⟩
        rw [← h]
        simpa using head?_mem hpr
      · exact absurd h (by simp)
  | cons cc cs ih =>
      intro x h
      simp only [searchSplit] at h
      split at h
      · rename_i pr hpr
        injection h with h
        refine ⟨prev, cc :: cs, ?_⟩
        rw [← h]
        simpa using head?_mem hpr
      · split at h
        · rename_i y hy
          injection h with h
          obtain ⟨p2, s2, hm⟩ := ih hy
          refine ⟨p2, s2, ?_⟩
          rw [← h]
          simpa using hm
        · exact absurd h (by simp)

theorem searchSpan_firstSat {p : Char → Prop} {r : Regex} (hr : FirstSat p r)
    {s m : List Char} (h : searchSpan r s = some m) :
    ∃ hd tl, m = hd :: tl ∧ p hd := by
  unfold searchSpan at h
  cases hx : searchSplit r none s with
  | none => rw [hx] at h; simp at h
  | some x =>
      rw [hx] at h
      simp at h
      obtain ⟨p2, s2, hm⟩ := searchSplit_run hx
      rw [← h]
      exact run_firstSat hr _ _ _ _ _ hm

theorem searchSpan_charsSat {p : Char → Prop} {r : Regex} (hr : CharsSat p r)
    {s m : List Char} (h : searchSpan r s = some m) : ∀ ch ∈ m, p ch := by
  unfold searchSpan at h
  cases hx : searchSplit r none s with
  | none => rw [hx] at h; simp at h
  | some x =>
      rw [hx] at h
      simp at h
      obtain ⟨p2, s2, hm⟩ := searchSplit_run hx
      rw [← h]
      exact run_charsSat hr _ _ _ _ _ hm

/-! Facts about the amount patterns: every matched span starts with a
character that is not a magnitude letter, and the number pattern consumes
only digits, commas and dots, starting with a digit. -/

theorem symChar_not_mag : ∀ c, symChar c = true → magChar c = false := by
  intro c hc
  simp [symChar] at hc
  rcases hc with (rfl | rfl) | rfl <;> rfl

theorem isDigit_not_mag : ∀ c, c.isDigit = true → magChar c = false := by
  intro c hc
  by_contra hmag
  rw [Bool.not_eq_false] at hmag
  simp [magChar] at hmag
  rcases hmag with ((((rfl | rfl) | rfl) | rfl) | rfl) | rfl <;> exact absurd hc (by decide)

theorem toLowerEq_not_mag {a : Char} (ha : a = 'u' ∨ a = 'e' ∨ a = 'g') :
    ∀ c, (c.toLower == a) = true → magChar c = false := by
  intro c hc
  rw [beq_iff_eq] at hc
  by_contra hmag
  rw [Bool.not_eq_false] at hmag
  simp [magChar] at hmag
  rcases hmag with ((((rfl | rfl) | rfl) | rfl) | rfl) | rfl <;>
    rcases ha with rfl | rfl | rfl <;> exact absurd hc (by decide)

theorem firstSat_number {p : Char → Prop} (hd : ∀ c, c.isDigit = true → p c) :
    FirstSat p numberRe := by
  unfold numberRe numberCore d13 dplus
  exact .cat_left (.alt
    (.cat_left (.alt (.cat_left (.cls _ hd)) (.alt (.cat_left (.cls _ hd)) (.cls _ hd))))
    (.cat_left (.cls _ hd)))

theorem firstSat_amountP1 : FirstSat (fun c => magChar c = false) amountP1 := by
  unfold amountP1
  exact .cat_left (.cls _ symChar_not_mag)

theorem firstSat_amountP2 : FirstSat (fun c => magChar c = false) amountP2 := by
  unfold amountP2
  exact .cat_left (firstSat_number isDigit_not_mag)

theorem firstSat_amountP3 : FirstSat (fun c => magChar c = false) amountP3 := by
  unfold amountP3 codeAlt ciChar
  exact .cat_wb (.cat_left (.alt
    (.cat_left (.cls _ (toLowerEq_not_mag (Or.inl rfl))))
    (.alt (.cat_left (.cls _ (toLowerEq_not_mag (Or.inr (Or.inl rfl)))))
      (.cat_left (.cls _ (toLowerEq_not_mag (Or.inr (Or.inr rfl))))))))

theorem firstSat_amountP4 : FirstSat (fun c => magChar c = false) amountP4 := by
  unfold amountP4
  exact .cat_left (firstSat_number isDigit_not_mag)

theorem charsSat_number :
    CharsSat (fun c => c.isDigit = true ∨ c = ',' ∨ c = '.') numberRe := by
  have hdig : ∀ c : Char, c.isDigit = true → (c.isDigit = true ∨ c = ',' ∨ c = '.') :=
    fun c h => Or.inl h
  have hcom : ∀ c : Char, (c == ',') = true → (c.isDigit = true ∨ c = ',' ∨ c = '.') :=
    fun c h => Or.inr (Or.inl (by rwa [beq_iff_eq] at h))
  have hdot : ∀ c : Char, (c == '.') = true → (c.isDigit = true ∨ c = ',' ∨ c = '.') :=
    fun c h => Or.inr (Or.inr (by rwa [beq_iff_eq] at h))
  unfold numberRe numberCore d13 dplus commaGroup
  exact .cat
    (.alt
      (.cat
        (.alt (.cat (.cls _ hdig) (.cat (.cls _ hdig) (.cls _ hdig)))
          (.alt (.cat (.cls _ hdig) (.cls _ hdig)) (.cls _ hdig)))
        (.star (.cat (.cls _ hcom) (.cat (.cls _ hdig) (.cat (.cls _ hdig) (.cls _ hdig))))))
      (.cat (.cls _ hdig) (.star (.cls _ hdig))))
    (.alt (.cat (.cls _ hdot) (.cat (.cls _ hdig) (.star (.cls _ hdig)))) .eps)

theorem magnitudeOf_not_mag {hd : Char} {tl : List Char} (h : magChar hd = false) :
    magnitudeOf (hd :: tl) = [] := by
  simp [magnitudeOf, searchSpan, searchSplit, Regex.run, magOpt, h]

theorem tryPatterns_not_mag {s span : List Char} (h : tryPatterns s = some span) :
    ∃ hd tl, span = hd :: tl ∧ magChar hd = false := by
  unfold tryPatterns at h
  cases h1 : searchSpan amountP1 s with
  | some m =>
      rw [h1] at h
      injection h with h
      exact h ▸ searchSpan_firstSat firstSat_amountP1 h1
  | none =>
      rw [h1] at h
      cases h2 : searchSpan amountP2 s with
      | some m =>
          rw [h2] at h
          injection h with h
          exact h ▸ searchSpan_firstSat firstSat_amountP2 h2
      | none =>
          rw [h2] at h
          cases h3 : searchSpan amountP3 s with
          | some m =>
              rw [h3] at h
              injection h with h
              exact h ▸ searchSpan_firstSat firstSat_amountP3 h3
          | none =>
              rw [h3] at h
              exact searchSpan_firstSat firstSat_amountP4 h

theorem firstRawNum_digitsToNat {span g : List Char} (h : firstRawNum span = some g) :
    digitsToNat? (g.filter (fun c => c ≠ ',')) =
      some ((g.filter (fun c => c ≠ ',')).foldl (fun a c => a * 10 + (c.toNat - 48)) 0) := by
  unfold firstRawNum at h
  cases hm : searchSpan numberRe span with
  | none => rw [hm] at h; simp at h
  | some m =>
      rw [hm] at h
      simp at h
      obtain ⟨hd, tl, rfl, hdig⟩ := searchSpan_firstSat (firstSat_number (fun c hc => hc)) hm
      have hchars := searchSpan_charsSat charsSat_number hm
      have hd_dot : hd ≠ '.' := by
        intro hh
        rw [hh] at hdig
        exact absurd hdig (by decide)
      have hd_com : hd ≠ ',' := by
        intro hh
        rw [hh] at hdig
        exact absurd hdig (by decide)
      have hg : g = hd :: tl.takeWhile (fun c => decide (c ≠ '.')) := by
        rw [← h]
        simp [List.takeWhile, hd_dot]
      have hl : g.filter (fun c => c ≠ ',') =
          hd :: (tl.takeWhile (fun c => decide (c ≠ '.'))).filter (fun c => decide (c ≠ ',')) := by
        rw [hg]
        simp [List.filter, hd_com]
      have hall : ∀ ch ∈ g.filter (fun c => c ≠ ','), ch.isDigit = true := by
        intro ch hch
        rw [List.mem_filter] at hch
        obtain ⟨hch1, hch2⟩ := hch
        have hch3 : ch ≠ ',' := by simpa using hch2
        rw [hg] at hch1
        rcases List.mem_cons.mp hch1 with rfl | hch4
        · exact hdig
        · obtain ⟨hch5, hch6⟩ := mem_takeWhile hch4
          have hch7 : ch ≠ '.' := by simpa using hch6
          rcases hchars ch (List.mem_cons_of_mem _ hch5) with hh | hh | hh
          · exact hh
          · exact absurd hh hch3
          · exact absurd hh hch7
      unfold digitsToNat?
      rw [if_neg (by rw [hl]; simp), if_pos (by rw [List.all_eq_true]; exact hall)]

/-! Claim theorems. -/

/-- C3 counterexample: on the Nimbus title the code yields 3.00, not the
3,200,000.00 the claim states, because the decimal fraction is not part of
the reported number group and the magnitude letter is never applied. -/
theorem nimbus_amount_not_scaled :
    (parse_amount_and_currency nimbusTitle).1 = some 3 ∧
    (parse_amount_and_currency nimbusTitle).1 ≠ some 3200000 := by
  constructor
  · decide
  · decide

/-- C3 amended: for every title in which one of the four amount shapes
matches, the extracted value is the integer-group part of the first
numeric token of the matched span (commas removed, any decimal fraction
excluded), rounded to two decimals, with no magnitude multiplication ever
applied: the magnitude search over the span finds the empty match because
no matched span starts with a magnitude letter. -/
theorem amount_integer_part_no_magnitude (title : String) (span : List Char)
    (h : tryPatterns (normalizeMagnitudes title.data) = some span) :
    magnitudeOf span = [] ∧
    parse_amount_and_currency title =
      (match firstRawNum span with
       | none => (none, none)
       | some g => (some (round2 (numValue g)), currencyOf span)) := by
  obtain ⟨hd, tl, rfl, hmag⟩ := tryPatterns_not_mag h
  have hm0 : magnitudeOf (hd :: tl) = [] := magnitudeOf_not_mag hmag
  refine ⟨hm0, ?_⟩
  unfold parse_amount_and_currency
  simp only [h]
  cases hg : firstRawNum (hd :: tl) with
  | none => simp
  | some g =>
      have hdg := firstRawNum_digitsToNat hg
      simp only [hdg, hm0]
      simp [applyMag, numValue]

/-- C3 witness: the general theorem applied to the Nimbus title, whose
matched span is the euro amount. -/
theorem amount_integer_part_no_magnitude_witness :
    tryPatterns (normalizeMagnitudes nimbusTitle.data) = some nimbusSpan ∧
    magnitudeOf nimbusSpan = [] ∧
    parse_amount_and_currency nimbusTitle = (some 3, some "EUR") := by
  have h : tryPatterns (normalizeMagnitudes nimbusTitle.data) = some nimbusSpan := by decide
  exact ⟨h, (amount_integer_part_no_magnitude nimbusTitle nimbusSpan h).1, by decide⟩

/-- C9 at the extractor level: whenever the returned currency is set, the
returned value is set as well (the matched number group always parses). -/
theorem parse_amount_currency_implies_value (t : String)
    (h : (parse_amount_and_currency t).2 ≠ none) :
    (parse_amount_and_currency t).1 ≠ none := by
  unfold parse_amount_and_currency at h ⊢
  cases htr : tryPatterns (normalizeMagnitudes t.data) with
  | none => simp [htr] at h
  | some span =>
      simp only [htr] at h ⊢
      cases hg : firstRawNum span with
      | none => simp [hg] at h
      | some g =>
          have hdg := firstRawNum_digitsToNat hg
          simp only [hg]
          rw [hdg]
          simp

/-- C9: every record produced by the normalizer has a value whenever it
has a currency. -/
theorem amount_currency_implies_value
    (isoT : String → Except Unit Int) (now since_days : Int)
    (inserted_at source : String) (e : RawEntry) (item : NewsItem)
    (h : normalize_entry isoT now since_days inserted_at source e = some item)
    (hc : item.amount_currency ≠ none) : item.amount_value ≠ none := by
  unfold normalize_entry normalize_entryE at h
  by_cases h1 : e.title = "" ∨ e.link = ""
  · rw [if_pos h1] at h
    simp at h
  · rw [if_neg h1] at h
    cases h2 : is_funding_related e.title with
    | false => simp [h2] at h
    | true =>
        simp only [h2, Bool.not_true, Bool.false_eq_true, if_false] at h
        cases h3 : within_since_days isoT now (parse_published_utc e) since_days with
        | false => simp [h3] at h
        | true =>
            simp only [h3, Bool.not_true, Bool.false_eq_true, if_false] at h
            simp at h
            obtain rfl := h.symm
            simp at hc ⊢
            exact parse_amount_currency_implies_value e.title hc

/-- C9 witness: the concrete record produced for the Acme entry has both
currency and value set. -/
theorem amount_currency_implies_value_witness : acmeItem.amount_value ≠ none :=
  amount_currency_implies_value errIso 0 90 "2025-01-01T00:00:00+00:00" "techcrunch"
    fundedEntry acmeItem (by decide) (by decide)

/-- C4 counterexample: when the structured published field is present but
raises, resolution does not proceed to the later sources; the parseable
free-text updated value is not returned, null is. -/
theorem published_failure_not_cascading :
    parse_published_utc badPubEntry = none ∧
    parse_published_utc badPubEntry ≠ some "2024-05-01T00:00:00+00:00" := by
  constructor
  · rfl
  · decide

/-- C4 amended: the four timestamp sources are tried in order and absence
at a step proceeds to the next; but a parse failure at any present step
makes the whole resolution return null immediately rather than proceeding;
only when every source is absent or a failure occurred is null returned,
and the function never errors. -/
theorem parse_published_resolution (e : RawEntry) (s : String) (u : Unit) :
    (e.published_parsed = some (.ok s) → parse_published_utc e = some s) ∧
    (e.published_parsed = some (.error u) → parse_published_utc e = none) ∧
    (e.published_parsed = none → e.updated_parsed = some (.ok s) →
      parse_published_utc e = some s) ∧
    (e.published_parsed = none → e.updated_parsed = some (.error u) →
      parse_published_utc e = none) ∧
    (e.published_parsed = none → e.updated_parsed = none →
      e.published = some (.ok s) → parse_published_utc e = some s) ∧
    (e.published_parsed = none → e.updated_parsed = none →
      e.published = some (.error u) → parse_published_utc e = none) ∧
    (e.published_parsed = none → e.updated_parsed = none → e.published = none →
      e.updated = some (.ok s) → parse_published_utc e = some s) ∧
    (e.published_parsed = none → e.updated_parsed = none → e.published = none →
      e.updated = some (.error u) → parse_published_utc e = none) ∧
    (e.published_parsed = none → e.updated_parsed = none → e.published = none →
      e.updated = none → parse_published_utc e = none) := by
  refine ⟨?_, ?_, ?_, ?_, ?_, ?_, ?_, ?_, ?_⟩
  · intro h1
    simp [parse_published_utc, publishedAttempt, h1]
  · intro h1
    simp [parse_published_utc, publishedAttempt, h1]
  · intro h1 h2
    simp [parse_published_utc, publishedAttempt, h1, h2]
  · intro h1 h2
    simp [parse_published_utc, publishedAttempt, h1, h2]
  · intro h1 h2 h3
    simp [parse_published_utc, publishedAttempt, h1, h2, h3]
  · intro h1 h2 h3
    simp [parse_published_utc, publishedAttempt, h1, h2, h3]
  · intro h1 h2 h3 h4
    simp [parse_published_utc, publishedAttempt, h1, h2, h3, h4]
  · intro h1 h2 h3 h4
    simp [parse_published_utc, publishedAttempt, h1, h2, h3, h4]
  · intro h1 h2 h3 h4
    simp [parse_published_utc, publishedAttempt, h1, h2, h3, h4]

/-- C4 witness: the first resolution step applied to a concrete entry with
a parseable structured published field. -/
theorem parse_published_resolution_witness :
    parse_published_utc okDateEntry = some "2024-01-02T03:04:05+00:00" :=
  (parse_published_resolution okDateEntry "2024-01-02T03:04:05+00:00" ()).1 rfl

/-- C5 counterexample: for a relevant, recent entry, an exception raised
inside the company extractor does not yield a record with the company
field absent; the whole entry is dropped by the per-entry handler of the
collector. -/
theorem extractor_exception_drops_entry :
    fundedEntry.title ≠ "" ∧ fundedEntry.link ≠ "" ∧
    is_funding_related fundedEntry.title = true ∧
    within_since_days errIso 0 (parse_published_utc fundedEntry) 90 = true ∧
    process_entry (fun _ => .error ()) (fun t => .ok (parse_amount_and_currency t))
      (fun t => .ok (parse_stage t)) errIso 0 90 "2025-01-01T00:00:00+00:00"
      "techcrunch" fundedEntry = none := by
  refine ⟨by decide, by decide, by decide, by decide, by decide⟩

/-- C5 amended: normalize_entry contains no per-field handler, so an
exception raised by any one extractor on an entry that passed the title,
relevance and recency gates propagates out and the collector's per-entry
handler drops the entire entry: no record is produced. -/
theorem extractor_exception_entry_rejected
    (companyF : String → Except Unit (Option String))
    (amountF : String → Except Unit (Option Rat × Option String))
    (stageF : String → Except Unit (Option String))
    (isoT : String → Except Unit Int) (now since_days : Int)
    (inserted_at source : String) (e : RawEntry)
    (hT : e.title ≠ "") (hL : e.link ≠ "")
    (hF : is_funding_related e.title = true)
    (hW : within_since_days isoT now (parse_published_utc e) since_days = true)
    (hE : (∃ u, companyF e.title = .error u) ∨ (∃ u, amountF e.title = .error u) ∨
          (∃ u, stageF e.title = .error u)) :
    process_entry companyF amountF stageF isoT now since_days inserted_at source e = none := by
  unfold process_entry normalize_entryE
  rw [if_neg (by simp [hT, hL])]
  simp only [hF, hW, Bool.not_true, Bool.false_eq_true, if_false]
  cases hc : companyF e.title with
  | error u => simp
  | ok cv =>
      cases ha : amountF e.title with
      | error u => simp
      | ok av =>
          cases hs : stageF e.title with
          | error u => simp
          | ok sv =>
              exfalso
              rcases hE with ⟨u, hu⟩ | ⟨u, hu⟩ | ⟨u, hu⟩
              · rw [hu] at hc
                exact Except.noConfusion hc
              · rw [hu] at ha
                exact Except.noConfusion ha
              · rw [hu] at hs
                exact Except.noConfusion hs

/-- C5 witness: the amended theorem applied to the concrete relevant entry
with a raising company extractor. -/
theorem extractor_exception_entry_rejected_witness :
    process_entry (fun _ => .error ()) (fun t => .ok (parse_amount_and_currency t))
      (fun t => .ok (parse_stage t)) errIso 0 90 "2025-01-01T00:00:00+00:00"
      "techcrunch" fundedEntry = none :=
  extractor_exception_entry_rejected _ _ _ errIso 0 90 _ _ fundedEntry
    (by decide) (by decide) (by decide) (by decide) (Or.inl ⟨(), rfl⟩)

/-- C6 counterexample: with window 0 (which is nonpositive) and a
well-formed date one day in the past, the filter rejects the item instead
of accepting everything. -/
theorem since_days_zero_rejects_past :
    ((0 : Int) ≤ 0) ∧
    within_since_days (fun _ => .ok 0) 86400 (some "1970-01-01T00:00:00+00:00") 0 = false := by
  exact ⟨le_refl 0, by decide⟩

/-- C6 amended: a nonpositive window does not disable the filter; null or
unparseable dates are kept, but a well-formed date is kept exactly when it
is at least minus-windowDays days in the future of now. -/
theorem within_since_days_nonpositive (now d : Int) (_hd : d ≤ 0) :
    (∀ isoT, within_since_days isoT now none d = true) ∧
    (∀ isoT s, isoT s = .error () → within_since_days isoT now (some s) d = true) ∧
    (∀ (isoT : String → Except Unit Int) s t, isoT s = .ok t →
      (within_since_days isoT now (some s) d = true ↔ now + 86400 * (-d) ≤ t)) := by
  refine ⟨fun _ => rfl, ?_, ?_⟩
  · intro isoT s h
    simp [within_since_days, h]
  · intro isoT s t h
    simp only [within_since_days, h, decide_eq_true_eq, ge_iff_le]
    omega

/-- C6 witness: the amended theorem at window 0, now one day after epoch,
and a date at the epoch: the item is rejected. -/
theorem within_since_days_nonpositive_witness :
    within_since_days (fun _ => .ok 0) 86400 (some "epoch") 0 = false := by
  have h := (within_since_days_nonpositive 86400 0 (le_refl 0)).2.2
    (fun _ => .ok 0) "epoch" 0 rfl
  cases hw : within_since_days (fun _ => .ok 0) 86400 (some "epoch") 0 with
  | false => rfl
  | true => exact absurd (h.mp hw) (by decide)

/-! Store idempotence (C1). -/

theorem insert_mono :
    ∀ (items store : List NewsItem) (r : NewsItem),
      r ∈ store → r ∈ (insert_news_items store items).1 := by
  intro items
  induction items with
  | nil =>
      intro store r hr
      simpa [insert_news_items] using hr
  | cons it rest ih =>
      intro store r hr
      cases hany : store.any (fun r2 => r2.link == it.link) with
      | true => simpa [insert_news_items, hany] using ih store r hr
      | false =>
          simp only [insert_news_items, hany, Bool.false_eq_true, if_false]
          exact ih (store ++ [it]) r (List.mem_append_left _ hr)

theorem insert_link_present :
    ∀ (items store : List NewsItem) (it : NewsItem),
      it ∈ items → ∃ r ∈ (insert_news_items store items).1, r.link = it.link := by
  intro items
  induction items with
  | nil =>
      intro store it h
      simp at h
  | cons it0 rest ih =>
      intro store it hit
      cases hany : store.any (fun r2 => r2.link == it0.link) with
      | true =>
          simp only [insert_news_items, hany, if_true]
          rcases List.mem_cons.mp hit with rfl | h2
          · obtain ⟨r, hr, hlink⟩ := List.any_eq_true.mp hany
            rw [beq_iff_eq] at hlink
            exact ⟨r, insert_mono rest store r hr, hlink⟩
          · exact ih store it h2
      | false =>
          simp only [insert_news_items, hany, Bool.false_eq_true, if_false]
          rcases List.mem_cons.mp hit with rfl | h2
          · exact ⟨it, insert_mono rest (store ++ [it]) it (by simp), rfl⟩
          · exact ih (store ++ [it0]) it h2

theorem insert_all_skip :
    ∀ (items store : List NewsItem),
      (∀ it ∈ items, ∃ r ∈ store, r.link = it.link) →
      insert_news_items store items = (store, 0) := by
  intro items
  induction items with
  | nil => intro store _; rfl
  | cons it rest ih =>
      intro store h
      have hany : store.any (fun r2 => r2.link == it.link) = true := by
        obtain ⟨r, hr, hlink⟩ := h it (List.mem_cons_self _ _)
        exact List.any_eq_true.mpr ⟨r, hr, by rw [beq_iff_eq]; exact hlink⟩
      simp only [insert_news_items, hany, if_true]
      exact ih store (fun it2 h2 => h it2 (List.mem_cons_of_mem _ h2))

/-- C1: a record whose link already exists in the store is silently
skipped, leaving the store unchanged and the count untouched; and
re-running the insertion with the same records inserts nothing and
returns count 0. -/
theorem insert_news_items_idempotent :
    (∀ (store : List NewsItem) (it : NewsItem) (rest : List NewsItem),
      (∃ r ∈ store, r.link = it.link) →
      insert_news_items store (it :: rest) = insert_news_items store rest) ∧
    (∀ (store items : List NewsItem),
      insert_news_items (insert_news_items store items).1 items =
        ((insert_news_items store items).1, 0)) := by
  constructor
  · intro store it rest h
    obtain ⟨r, hr, hlink⟩ := h
    have hany : store.any (fun r2 => r2.link == it.link) = true :=
      List.any_eq_true.mpr ⟨r, hr, by rw [beq_iff_eq]; exact hlink⟩
    simp only [insert_news_items, hany, if_true]
  · intro store items
    exact insert_all_skip items _ (fun it hit => insert_link_present items store it hit)

/-- C1 witness: a store already holding the link skips the record, and the
second pass over a freshly inserted batch inserts nothing. -/
theorem insert_news_items_idempotent_witness :
    insert_news_items [itemL] [itemL] = ([itemL], 0) := by
  have h := insert_news_items_idempotent.1 [itemL] itemL [] ⟨itemL, by simp, rfl⟩
  rw [h]
  rfl

/-! Backup log dedup (C10). -/

theorem appendGo_spec :
    ∀ (items : List NewsItem) (existing : List String) (file : List NewsItem) (w : Nat),
      (∀ l, l ∈ existing ↔ l ∈ linksOf file) →
      ∃ new, appendGo existing file w items = (file ++ new, w + new.length) ∧
        (∀ r ∈ new, r ∈ items) ∧
        (∀ l ∈ linksOf new, l ∉ linksOf file) ∧
        (linksOf new).Nodup ∧
        (∀ it ∈ items, it.link ∈ linksOf (file ++ new)) := by
  intro items
  induction items with
  | nil =>
      intro existing file w _
      exact ⟨[], by simp [appendGo], by simp, by simp [linksOf], by simp [linksOf], by simp⟩
  | cons it rest ih =>
      intro existing file w hinv
      cases hmem : strMem existing it.link with
      | true =>
          simp only [appendGo, hmem, if_true]
          obtain ⟨new, heq, hsub, hdisj, hnd, hall⟩ := ih existing file w hinv
          refine ⟨new, heq, fun r hr => List.mem_cons_of_mem _ (hsub r hr), hdisj, hnd, ?_⟩
          intro it2 hit2
          rcases List.mem_cons.mp hit2 with rfl | h2
          · have h3 : it2.link ∈ linksOf file := (hinv it2.link).mp (strMem_iff.mp hmem)
            simp only [linksOf, List.map_append, List.mem_append]
            exact Or.inl h3
          · exact hall it2 h2
      | false =>
          simp only [appendGo, hmem, Bool.false_eq_true, if_false]
          have hnotin : it.link ∉ linksOf file := by
            intro hcon
            have := (hinv it.link).mpr hcon
            rw [← strMem_iff] at this
            rw [hmem] at this
            exact Bool.noConfusion this
          have hinv2 : ∀ l, l ∈ it.link :: existing ↔ l ∈ linksOf (file ++ [it]) := by
            intro l
            rw [List.mem_cons, hinv l]
            simp only [linksOf, List.map_append, List.mem_append, List.map_cons,
              List.map_nil, List.mem_singleton]
            tauto
          obtain ⟨new, heq, hsub, hdisj, hnd, hall⟩ := ih (it.link :: existing) (file ++ [it]) (w + 1) hinv2
          refine ⟨it :: new, ?_, ?_, ?_, ?_, ?_⟩
          · rw [heq]
            simp only [Prod.mk.injEq]
            constructor
            · rw [List.append_assoc]
              rfl
            · simp only [List.length_cons]
              omega
          · intro r hr
            rcases List.mem_cons.mp hr with rfl | h2
            · exact List.mem_cons_self _ _
            · exact List.mem_cons_of_mem _ (hsub r h2)
          · intro l hl
            simp only [linksOf, List.map_cons, List.mem_cons] at hl
            rcases hl with rfl | h2
            · exact hnotin
            · intro hcon
              have h3 := hdisj l h2
              simp only [linksOf, List.map_append, List.mem_append] at h3
              exact h3 (Or.inl hcon)
          · simp only [linksOf, List.map_cons, List.nodup_cons]
            refine ⟨?_, hnd⟩
            intro hcon
            have h3 := hdisj it.link hcon
            simp [linksOf] at h3
          · intro it2 hit2
            rcases List.mem_cons.mp hit2 with rfl | h2
            · unfold linksOf
              exact List.mem_map_of_mem _ (by simp)
            · have h3 := hall it2 h2
              rw [List.append_assoc] at h3
              exact h3

theorem appendGo_all_skip :
    ∀ (items : List NewsItem) (existing : List String) (file : List NewsItem) (w : Nat),
      (∀ it ∈ items, strMem existing it.link = true) →
      appendGo existing file w items = (file, w) := by
  intro items
  induction items with
  | nil => intro existing file w _; rfl
  | cons it rest ih =>
      intro existing file w h
      have h0 := h it (List.mem_cons_self _ _)
      simp only [appendGo, h0, if_true]
      exact ih existing file w (fun it2 h2 => h it2 (List.mem_cons_of_mem _ h2))

/-- C10: for batches of records with non-empty links over a log whose rows
have non-empty links, the append never introduces a second row for an
already present link (at-most-one-row-per-link is preserved), and
appending the same batch a second time writes zero rows and leaves the
log unchanged. -/
theorem append_items_to_csv_dedup (file items : List NewsItem)
    (hf : ∀ r ∈ file, r.link ≠ "") (hi : ∀ it ∈ items, it.link ≠ "") :
    ((linksOf file).Nodup → (linksOf (append_items_to_csv file items).1).Nodup) ∧
    append_items_to_csv (append_items_to_csv file items).1 items =
      ((append_items_to_csv file items).1, 0) := by
  have hinv : ∀ l, l ∈ load_existing_csv_links file ↔ l ∈ linksOf file := by
    intro l
    simp only [load_existing_csv_links, List.mem_filter]
    constructor
    · exact fun h => h.1
    · intro h
      refine ⟨h, ?_⟩
      simp only [linksOf, List.mem_map] at h
      obtain ⟨r, hr, rfl⟩ := h
      simpa using hf r hr
  obtain ⟨new, heq, hsub, hdisj, hnd, hall⟩ := appendGo_spec items _ file 0 hinv
  have hres : append_items_to_csv file items = (file ++ new, new.length) := by
    unfold append_items_to_csv
    rw [heq]
    simp
  constructor
  · intro hndf
    rw [hres]
    simp only [linksOf, List.map_append]
    rw [List.nodup_append]
    refine ⟨hndf, hnd, ?_⟩
    intro a ha hcon
    exact hdisj a hcon ha
  · rw [hres]
    unfold append_items_to_csv
    apply appendGo_all_skip
    intro it hit
    rw [strMem_iff]
    simp only [load_existing_csv_links, List.mem_filter]
    refine ⟨hall it hit, by simpa using hi it hit⟩

/-- C10 witness: an empty log receives a singleton batch; re-appending the
same batch writes nothing. -/
theorem append_items_to_csv_dedup_witness :
    append_items_to_csv (append_items_to_csv [] [itemL]).1 [itemL] =
      ((append_items_to_csv [] [itemL]).1, 0) :=
  (append_items_to_csv_dedup [] [itemL] (by simp) (by decide)).2

/-! Company truncation (C8) and the literal extraction cases (C2, C7). -/

theorem truncateGo_first (t : List Char) :
    ∀ (pre : List String) (sep : String) (post : List String),
      (∀ s0 ∈ pre, isSub s0.data t = false) →
      isSub sep.data t = true →
      truncateGo t (pre ++ sep :: post) = beforeFirst sep.data t := by
  intro pre
  induction pre with
  | nil =>
      intro sep post _ hocc
      simp [truncateGo, hocc]
  | cons s0 pre ih =>
      intro sep post hpre hocc
      have h0 : isSub s0.data t = false := hpre s0 (List.mem_cons_self _ _)
      simp only [List.cons_append, truncateGo, h0, Bool.false_eq_true, if_false]
      exact ih sep post (fun s1 h1 => hpre s1 (List.mem_cons_of_mem _ h1)) hocc

theorem beforeFirst_decomp (pat : List Char) :
    ∀ s : List Char, isSub pat s = true →
      ∃ suffix, s = beforeFirst pat s ++ suffix ∧ startsWithL pat suffix = true := by
  intro s
  induction s with
  | nil =>
      intro h
      simp only [isSub] at h
      exact ⟨[], by simp [beforeFirst], h⟩
  | cons x xs ih =>
      intro h
      cases hs : startsWithL pat (x :: xs) with
      | true => exact ⟨x :: xs, by simp [beforeFirst, hs], hs⟩
      | false =>
          have h2 : isSub pat xs = true := by
            simp only [isSub, hs, Bool.false_or] at h
            exact h
          obtain ⟨suffix, hdecomp, hstart⟩ := ih h2
          refine ⟨suffix, ?_, hstart⟩
          simp only [beforeFirst, hs, Bool.false_eq_true, if_false, List.cons_append]
          rw [← hdecomp]

/-- C8 counterexample: in a title whose positionally earliest separator is
the spaced hyphen but which also contains a colon, the returned candidate
is drawn from text after the earliest separator (the code truncates at the
colon because the separator list is tried in order, not by position). -/
theorem company_separator_priority_cex :
    parse_company mixedSepTitle = some "Beta" ∧
    earliestSepPortionSpec mixedSepTitle.data = "lower".data ∧
    isSub "Beta".data (earliestSepPortionSpec mixedSepTitle.data) = false := by
  refine ⟨by decide, by decide, by decide⟩

/-- C8 amended: the truncation point is the first occurrence of the first
separator in the fixed list order that occurs anywhere in the title; the
candidate scan sees only the portion strictly before that occurrence, so
no candidate drawn at or after it is returned. -/
theorem parse_company_list_priority (t : String) (pre : List String) (sep : String)
    (post : List String)
    (hsplit : separators = pre ++ sep :: post)
    (hocc : isSub sep.data t.data = true)
    (hpre : ∀ s0 ∈ pre, isSub s0.data t.data = false) :
    parse_company t =
      scanCandidates ((beforeFirst sep.data t.data).length + 1) none
        (beforeFirst sep.data t.data) ∧
    ∃ suffix, t.data = beforeFirst sep.data t.data ++ suffix ∧
      startsWithL sep.data suffix = true := by
  have htr : truncateSeg t.data = beforeFirst sep.data t.data := by
    unfold truncateSeg
    rw [hsplit]
    exact truncateGo_first t.data pre sep post hpre hocc
  constructor
  · unfold parse_company
    rw [htr]
  · exact beforeFirst_decomp sep.data t.data hocc

/-- C8 witness: the colon is the first listed separator occurring in the
mixed-separator title, so the scan runs on the portion before the colon. -/
theorem parse_company_list_priority_witness :
    parse_company mixedSepTitle =
      scanCandidates ((beforeFirst ":".data mixedSepTitle.data).length + 1) none
        (beforeFirst ":".data mixedSepTitle.data) :=
  (parse_company_list_priority mixedSepTitle [] ":"
    [" - ", " – ", " — ", "–", "—", " | "] rfl (by decide) (by simp)).1

/-- C2 counterexample: on the Acme title the code yields amount 5.00, not
the 5,000,000.00 the claim states (the magnitude letter in the span is
never applied). -/
theorem acme_amount_not_five_million :
    (parse_amount_and_currency acmeTitle).1 = some 5 ∧
    (parse_amount_and_currency acmeTitle).1 ≠ some 5000000 := by
  refine ⟨by decide, by decide⟩

/-- C2 amended: the three extractors on the Acme title return company
Acme Robotics, amount 5.00 with currency USD, and stage Seed. -/
theorem acme_extraction_values :
    parse_company acmeTitle = some "Acme Robotics" ∧
    parse_amount_and_currency acmeTitle = (some 5, some "USD") ∧
    parse_stage acmeTitle = some "Seed" := by
  refine ⟨by decide, by decide, by decide⟩

/-- C7 counterexample: on the Fiona title the company extractor returns
Fiona, not Fiona & Co: the ampersand stands alone between whitespace, so
the capitalized-token run stops after the first word. -/
theorem fiona_company_truncated :
    parse_company fionaTitle = some "Fiona" ∧
    parse_company fionaTitle ≠ some "Fiona & Co" := by
  refine ⟨by decide, by decide⟩

/-- C7 amended: the extractors on the Fiona title return company Fiona,
amount 750,000.00 with currency GBP, and stage Pre-Seed. -/
theorem fiona_extraction_values :
    parse_company fionaTitle = some "Fiona" ∧
    parse_amount_and_currency fionaTitle = (some 750000, some "GBP") ∧
    parse_stage fionaTitle = some "Pre-Seed" := by
  refine ⟨by decide, by decide, by decide⟩

end VCTool
